import Mathlib

set_option maxHeartbeats 1000000
set_option maxRecDepth 4000

/-!
Verification of the tag-hierarchy library `libtags.py` of the bntp.nvim
repository (`src/productivity.py/src/lib/libtags.py`).

The YAML values the library manipulates (`TagHierachyNode = Union[List, Dict, str]`)
are embedded as the mutual inductive types `YNode`/`YList`: a scalar string, a
single-entry mapping (the on-disk tag format only produces single-entry
mappings, and the code reads them through `list(node.keys())[0]`), or a list of
nodes.  Python in-place mutation is modelled by returning the updated value;
operations that can raise are modelled with `Except PyErr` or `Option`.
-/

mutual
inductive YNode where
  | s : String → YNode
  | m : String → YNode → YNode
  | l : YList → YNode
deriving DecidableEq
inductive YList where
  | nil : YList
  | cons : YNode → YList → YList
deriving DecidableEq
end

deriving instance DecidableEq for Except

/-- Errors the Python code can raise while descending a hierarchy. -/
inductive PyErr where
  | keyErr
  | idxErr
  | attrErr
  | recurErr
  | typeErr
deriving DecidableEq

def YList.appendN : YList → YList → YList
  | .nil, ys => ys
  | .cons x xs, ys => .cons x (xs.appendN ys)

def YList.filterN (p : YNode → Bool) : YList → YList
  | .nil => .nil
  | .cons x xs => if p x then .cons x (xs.filterN p) else xs.filterN p

def YList.mapN (f : YNode → YNode) : YList → YList
  | .nil => .nil
  | .cons x xs => .cons (f x) (xs.mapN f)

/-- Membership of a node in a children list. -/
def YList.has (cs : YList) (x : YNode) : Prop :=
  match cs with
  | .nil => False
  | .cons c rest => x = c ∨ rest.has x

/-- Tag.__str__: components joined with the `::` separator. -/
def fmtTag (t : List String) : String := String.intercalate "::" t

/-- Tag.get_leaf: `data[-1]`. -/
def tagLeaf (t : List String) : String := t.getLastD ""

/-- Tag.get_root_tag: `data[0]`. -/
def tagRoot (t : List String) : String := t.headD ""

/-- Tag.get_direct_parent: `data[-2]` for length at least 2, None otherwise. -/
def tagDirectParent (t : List String) : Option String :=
  if t.length ≤ 1 then none else some (t.getD (t.length - 2) "")

/-- Tag.remove_root_tag: `self.data.pop(0)`; `pop(0)` raises IndexError on an
empty list, and otherwise the tag keeps everything but its first component. -/
def tagRemoveRoot (t : List String) : Option (List String) :=
  match t with
  | [] => none
  | _ :: rest => some rest

/-- Python loop `for i in range(1, len(cur_path) + 1): if not cur_path[:i] in
paths: paths.append(cur_path[:i])`, with the prefixes `cur[:i]` precomputed by
`initialSegs`. -/
def addAll (todo : List (List String)) (ps : List (List String)) : List (List String) :=
  todo.foldl (fun acc p => if p ∈ acc then acc else acc ++ [p]) ps

/-- The proper and improper leading segments `cur[:1], cur[:2], ..., cur[:len]`. -/
def initialSegs (p : List String) : List (List String) :=
  (List.range p.length).map (fun i => p.take (i + 1))

mutual
/-- TagHierachy.list_tags recursion: on a string leaf, append the node to the
current path and record every leading segment not yet collected; on a mapping,
append the (single) key to the current path and recurse into the value; on a
list, thread the accumulated paths through the children in order. -/
def listTagsAux (ps : List (List String)) (cur : List String) : YNode → List (List String)
  | .s x => addAll (initialSegs (cur ++ [x])) ps
  | .m k v => listTagsAux ps (cur ++ [k]) v
  | .l cs => listTagsList ps cur cs
def listTagsList (ps : List (List String)) (cur : List String) : YList → List (List String)
  | .nil => ps
  | .cons c cs => listTagsList (listTagsAux ps cur c) cur cs
end

/-- TagHierachy.list_tags(): the initial call passes `self.tags`, i.e. the whole
top-level mapping including the fixed key "tags" (not `self.tags["tags"]`), with
an empty current path and an empty accumulator. -/
def listTags (t : YNode) : List (List String) := listTagsAux [] [] t

/-- pyaoi.mismatch: zip both sequences and return the first pair of unequal
elements, or None when no compared pair differs (comparison stops at the end of
the shorter sequence). -/
def mismatchPair : List String → List String → Option (String × String)
  | x :: xs, y :: ys => if x ≠ y then some (x, y) else mismatchPair xs ys
  | _, _ => none

/-- TagHierachy.is_leaf_tag_ambiguous: `any(path != tag and pyaoi.mismatch(path,
tag) is not None and leaf_tag in path for path in self.list_tags())`. -/
def isLeafTagAmbiguous (t : YNode) (tag : List String) : Bool :=
  (listTags t).any fun path =>
    !(path == tag) && (mismatchPair path tag).isSome && path.contains (tagLeaf tag)

/-- TagHierachy.try_shorten_tag_path: return `[tag.get_leaf()]` when the tag is
not ambiguous, the tag itself otherwise. -/
def tryShortenTagPath (t : YNode) (tag : List String) : List String :=
  if !isLeafTagAmbiguous t tag then [tagLeaf tag] else tag

/-- Whether a hierarchy node is a Python dict, i.e. the sort key
`isinstance(item, dict)` used by `reorder_list_items`. -/
def isDictN : YNode → Bool
  | .m _ _ => true
  | _ => false

/-- Stable sort of a children list by the Boolean key `isinstance(item, dict)`:
non-dict entries keep their relative order and come first, dict entries keep
their relative order and come last (Python `list.sort` is stable). -/
def stablePart (cs : YList) : YList :=
  (cs.filterN fun c => !isDictN c).appendN (cs.filterN isDictN)

mutual
/-- TagHierachy.reorder_list_items acting on a node appearing as a mapping
value: lists get their dict items recursively processed (`pyaoi.for_each` with
the recursing lambda) and are then stably sorted; strings and mappings that
appear as values are left untouched by the corresponding branches. -/
def reorderVal : YNode → YNode
  | .l cs => .l (stablePart (reorderEach cs))
  | v => v
/-- The `pyaoi.for_each(node, lambda item: self.reorder_list_items(item) if
isinstance(item, dict) else item)` pass over a children list: mapping items `{k:
v}` get their value recursively reordered in place, other items are unchanged. -/
def reorderEach : YList → YList
  | .nil => .nil
  | .cons (.m k v) cs => .cons (.m k (reorderVal v)) (reorderEach cs)
  | .cons c cs => .cons c (reorderEach cs)
end

/-- The lambda applied by `pyaoi.for_each` to a single list item. -/
def reorderItem : YNode → YNode
  | .m k v => .m k (reorderVal v)
  | c => c

/-- TagHierachy.reorder_list_items entry point on `self.tags`: for a mapping the
values are recursively processed (single-entry mappings in this format), for a
bare list the list branch applies, bare strings hit no branch. -/
def reorderTags : YNode → YNode
  | .m k v => .m k (reorderVal v)
  | .l cs => .l (stablePart (reorderEach cs))
  | .s x => .s x

/-- Index of the first '-' in a line (`pyaoi.find(line, "-")`), `none` for the
Python sentinel `-1`. -/
def dashIdx (line : String) : Option Nat := line.toList.findIdx? (fun c => c == '-')

/-- The insertion test of `add_blank_lines`: both the current and the previous
line contain a '-' and the current indentation level is strictly smaller. -/
def blankCond (cur prevLine : String) : Bool :=
  match dashIdx cur, dashIdx prevLine with
  | some a, some b => decide (a < b)
  | _, _ => false

/-- TagHierachy.add_blank_lines: split the serialized text on newlines, insert
an empty line before every line whose '-' indentation is smaller than that of
the previous line (`lines[i - 1]`, which for `i = 0` is Python's `lines[-1]`,
the last line), and join with newlines.  The `print(lines)` side effect is
dropped. -/
def addBlankLines (text : String) : String :=
  let lines := text.splitOn "\n"
  let n := lines.length
  let out := (List.range n).foldl (fun acc i =>
    let line := lines.getD i ""
    let prevLine := lines.getD ((i + n - 1) % n) ""
    (if blankCond line prevLine then acc ++ [""] else acc) ++ [line]) []
  String.intercalate "\n" out

/-- The in-memory state of a TagHierachy: the decoded tree `tags` and the raw
serialized text `tags_file`. -/
structure Hier where
  tags : YNode
  tags_file : String
deriving DecidableEq

/-- TagHierachy.lint: `reorder_list_items()` reorders `self.tags` in place and
overwrites `self.tags_file` with a fresh dump of the reordered tree, then
`add_blank_lines()` rewrites `self.tags_file`.  The YAML encoder `yaml.dump` is
an external collaborator and is passed in as the function `dump`. -/
def lint (dump : YNode → String) (h : Hier) : Hier :=
  let t := reorderTags h.tags
  { tags := t, tags_file := addBlankLines (dump t) }

/-- Result of the add_tag loop over a children list: `early` is the
`node[i] = {parent: str(tag)}; return` branch (the rest of the list was not
scanned, conversions made so far are kept); `found` records the last matching
mapping `{parent: v}` (its position split into `pre`/`post`, the string value
already promoted to a one-element list as the code does for every match);
`nomatch` means the loop finished without any match, so the recursion continues
on the unchanged list itself. -/
inductive AddScan where
  | early (cs : YList)
  | found (pre : YList) (k : String) (v : YNode) (post : YList)
  | nomatch (cs : YList)

/-- The `for i, list_item in enumerate(node)` loop of TagHierachy.add_tag:
a mapping containing the key `parent` gets a string value promoted to a
one-element list and becomes the current descent target (no break, so a later
match overrides an earlier one); a string item equal to `parent` is replaced by
`{parent: str(tag)}` with an immediate return. -/
def addLoop (parent : String) (rest : List String) : YList → AddScan
  | .nil => .nomatch .nil
  | .cons (.m k v) cs =>
    if k = parent then
      let v' := match v with
        | .s a => YNode.l (.cons (.s a) .nil)
        | w => w
      match addLoop parent rest cs with
      | .early items => .early (.cons (.m k v') items)
      | .found pre k2 v2 post => .found (.cons (.m k v') pre) k2 v2 post
      | .nomatch items => .found .nil k v' items
    else
      match addLoop parent rest cs with
      | .early items => .early (.cons (.m k v) items)
      | .found pre k2 v2 post => .found (.cons (.m k v) pre) k2 v2 post
      | .nomatch items => .nomatch (.cons (.m k v) items)
  | .cons (.s a) cs =>
    if a = parent then .early (.cons (.m parent (.s (fmtTag rest))) cs)
    else
      match addLoop parent rest cs with
      | .early items => .early (.cons (.s a) items)
      | .found pre k2 v2 post => .found (.cons (.s a) pre) k2 v2 post
      | .nomatch items => .nomatch (.cons (.s a) items)
  | .cons (.l w) cs =>
    match addLoop parent rest cs with
    | .early items => .early (.cons (.l w) items)
    | .found pre k2 v2 post => .found (.cons (.l w) pre) k2 v2 post
    | .nomatch items => .nomatch (.cons (.l w) items)

/-- TagHierachy.add_tag recursion (the first call receives
`self.tags["tags"]`, the root children list).  With no parent components left,
`node.append(str(tag))` (AttributeError unless the node is a list).  Otherwise
for a list node: `parent = tag.get_direct_parent()` (i.e. `tag[-2]`), the root
component is popped, the loop runs, and the recursion continues into the last
matching mapping value, or on the same list when nothing matched.  For a dict
node the root is popped first and `node[tag.get_direct_parent()]` is looked up
(KeyError when absent or when the popped tag has no direct parent).  A string
node matches neither isinstance branch and Python recurses unboundedly
(RecursionError). -/
def addTagAux : List String → YNode → Except PyErr YNode
  | [], node =>
    match node with
    | .l cs => .ok (.l (cs.appendN (.cons (.s (fmtTag [])) .nil)))
    | _ => .error .attrErr
  | [x], node =>
    match node with
    | .l cs => .ok (.l (cs.appendN (.cons (.s (fmtTag [x])) .nil)))
    | _ => .error .attrErr
  | x :: y :: rest, node =>
    match node with
    | .m k v =>
      match tagDirectParent (y :: rest) with
      | none => .error .keyErr
      | some p =>
        if k = p then (addTagAux (y :: rest) v).map (fun v' => .m k v')
        else .error .keyErr
    | .l cs =>
      let parent := (x :: y :: rest).getD ((x :: y :: rest).length - 2) ""
      match addLoop parent (y :: rest) cs with
      | .early cs' => .ok (.l cs')
      | .found pre k v post =>
        (addTagAux (y :: rest) v).map
          (fun v' => .l (pre.appendN (.cons (.m k v') post)))
      | .nomatch cs' => addTagAux (y :: rest) (.l cs')
    | .s _ => .error .recurErr

/-- Whether the first list of characters occurs at the head of the second. -/
def leadsChars : List Char → List Char → Bool
  | [], _ => true
  | _ :: _, [] => false
  | a :: as, b :: bs => a == b && leadsChars as bs

/-- Whether the first list of characters occurs contiguously anywhere in the
second (the Python substring test `pat in s`). -/
def charsContain (pat : List Char) : List Char → Bool
  | [] => leadsChars pat []
  | c :: t => leadsChars pat (c :: t) || charsContain pat t

/-- Python substring membership `pat in s` for strings. -/
def subStr (pat s : String) : Bool := charsContain pat.toList s.toList

/-- Python `value in list` where the list holds hierarchy nodes and `value` is a
string: true iff some element is a string equal to it. -/
def hasStrElem : YList → String → Bool
  | .nil, _ => false
  | .cons (.s a) cs, o => a == o || hasStrElem cs o
  | .cons _ cs, o => hasStrElem cs o

/-- The predicate of `pyaoi.find_if` in TagHierachy.rename_tag:
`list_item == str(old_tag) or str(old_tag) in list_item`; `in` is substring
membership on a string item, key membership on a dict item and element
membership on a list item. -/
def renPred (fmtOld : String) : YNode → Bool
  | .s a => a == fmtOld || subStr fmtOld a
  | .m k _ => k == fmtOld
  | .l cs => hasStrElem cs fmtOld

/-- The mutation rename_tag applies to `node[i_tag]`: a string is overwritten
with `str(new_tag)`; a dict gets `node[i][str(new)] = node[i].pop(str(old))`
(KeyError when `str(old)` is not its key); a list matches neither isinstance
branch and is left unchanged. -/
def renApply (fmtOld fmtNew : String) : YNode → Except PyErr YNode
  | .s _ => .ok (.s fmtNew)
  | .m k v => if k = fmtOld then .ok (.m fmtNew v) else .error .keyErr
  | .l cs => .ok (.l cs)

/-- First item of a children list satisfying a predicate, split as
(items before, item, items after); `none` when no item satisfies it
(`pyaoi.find_if` returning -1). -/
def renIndex (p : YNode → Bool) : YList → Option (YList × YNode × YList)
  | .nil => none
  | .cons c cs =>
    if p c then some (.nil, c, cs)
    else (renIndex p cs).map (fun r => (YList.cons c r.1, r.2.1, r.2.2))

/-- A children list split as (all items but the last, last item); `none` for the
empty list. -/
def lastSplit : YList → Option (YList × YNode)
  | .nil => none
  | .cons c .nil => some (.nil, c)
  | .cons c cs => (lastSplit cs).map (fun r => (YList.cons c r.1, r.2))

/-- The terminal case of rename_tag on a children list: `i_tag =
pyaoi.find_if(node, ...)` and then the mutation on `node[i_tag]`.  When nothing
matched, `i_tag` is -1 and Python's `node[-1]` addresses the LAST item, so the
mutation silently hits the last sibling; on an empty list `node[-1]` raises
IndexError. -/
def renBase (fmtOld fmtNew : String) (cs : YList) : Except PyErr YList :=
  match renIndex (renPred fmtOld) cs with
  | some (pre, it, post) =>
    (renApply fmtOld fmtNew it).map (fun it' => pre.appendN (.cons it' post))
  | none =>
    match lastSplit cs with
    | none => .error .idxErr
    | some (pre, lastI) =>
      (renApply fmtOld fmtNew lastI).map (fun it' => pre.appendN (.cons it' .nil))

/-- The terminal case of rename_tag on an arbitrary node: lists behave as
`renBase`; indexing a dict with the integer `i_tag` raises KeyError; item
assignment on a string raises TypeError. -/
def renBaseNode (fmtOld fmtNew : String) : YNode → Except PyErr YNode
  | .l cs => (renBase fmtOld fmtNew cs).map (fun cs' => .l cs')
  | .m _ _ => .error .keyErr
  | .s _ => .error .typeErr

/-- Result of the rename_tag descent loop (first match wins, the loop breaks or
returns): a mapping item whose key is the parent, a string item equal to the
parent, or no match. -/
inductive RenScan where
  | foundDict (pre : YList) (k : String) (v : YNode) (post : YList)
  | foundStr (pre : YList) (post : YList)
  | nomatch

/-- The `for i, list_item in enumerate(node)` loop of TagHierachy.rename_tag. -/
def renLoop (parent : String) : YList → RenScan
  | .nil => .nomatch
  | .cons c cs =>
    match c with
    | .m k v =>
      if k = parent then .foundDict .nil k v cs
      else
        match renLoop parent cs with
        | .foundDict pre k2 v2 post => .foundDict (.cons c pre) k2 v2 post
        | .foundStr pre post => .foundStr (.cons c pre) post
        | .nomatch => .nomatch
    | .s a =>
      if a = parent then .foundStr .nil cs
      else
        match renLoop parent cs with
        | .foundDict pre k2 v2 post => .foundDict (.cons c pre) k2 v2 post
        | .foundStr pre post => .foundStr (.cons c pre) post
        | .nomatch => .nomatch
    | .l _ =>
      match renLoop parent cs with
      | .foundDict pre k2 v2 post => .foundDict (.cons c pre) k2 v2 post
      | .foundStr pre post => .foundStr (.cons c pre) post
      | .nomatch => .nomatch

/-- TagHierachy.rename_tag recursion (the first call receives
`self.tags["tags"]`).  In the terminal case (`old_tag` has no parents) the
find_if/`node[i_tag]` mutation runs.  Otherwise on a list node the loop looks
for the root component: a matching mapping with a string value gets that value
overwritten with `str(new_tag)` and the call returns; a matching mapping
otherwise becomes the descent target; a matching string item is replaced by
`{parent: []}` and descent continues into the fresh empty list; with no match
the recursion continues on the same list with the shortened tag.  On a dict
node, `node[old.get_root_tag()]` is looked up (KeyError when absent). -/
def renameAux : List String → String → YNode → Except PyErr YNode
  | [], fmtNew, node => renBaseNode (fmtTag []) fmtNew node
  | [x], fmtNew, node => renBaseNode x fmtNew node
  | x :: y :: rest, fmtNew, node =>
    match node with
    | .m k v =>
      if k = x then (renameAux (y :: rest) fmtNew v).map (fun v' => .m k v')
      else .error .keyErr
    | .l cs =>
      match renLoop x cs with
      | .foundDict pre k v post =>
        match v with
        | .s _ => .ok (.l (pre.appendN (.cons (.m k (.s fmtNew)) post)))
        | _ =>
          (renameAux (y :: rest) fmtNew v).map
            (fun v' => .l (pre.appendN (.cons (.m k v') post)))
      | .foundStr pre post =>
        (renameAux (y :: rest) fmtNew (.l .nil)).map
          (fun v' => .l (pre.appendN (.cons (.m x v') post)))
      | .nomatch => renameAux (y :: rest) fmtNew (.l cs)
    | .s _ => .error .recurErr

/-- Python whitespace class `\s` over ASCII. -/
def isWsC (c : Char) : Bool :=
  c == ' ' || c == '\t' || c == '\n' || c == '\r' || c == '\x0b' || c == '\x0c'

/-- One attempt of the DocumentTagHandler.remove_tag regex
`(?:(?<=^)|(?<=,))\s*TAG,?` at the current position (the lookbehind already
holds): greedily skip whitespace, require the literal tag text, optionally
consume one following comma.  Returns the remaining characters and the last
consumed character (which feeds the next lookbehind). -/
def tryMatchT (tag : List Char) (cs : List Char) : Option (List Char × Char) :=
  if tag = [] then none
  else
    let body := cs.dropWhile isWsC
    if leadsChars tag body then
      let rest0 := body.drop tag.length
      match rest0 with
      | ',' :: r => some (r, ',')
      | _ => some (rest0, tag.getLastD ' ')
    else none

/-- Left-to-right `re.sub` scan: at positions preceded by the line start or a
comma (in the original text) try the pattern; on success delete the matched
characters and continue after them, otherwise emit the character and advance.
The fuel is an upper bound on the number of steps; each step consumes at least
one character, so an initial fuel of one more than the length is never
exhausted. -/
def subScanF (tag : List Char) : Nat → Bool → List Char → List Char
  | 0, _, _ => []
  | _ + 1, _, [] => []
  | f + 1, canM, c :: rest =>
    if canM then
      match tryMatchT tag (c :: rest) with
      | some (rest', lastC) => subScanF tag f (lastC == ',') rest'
      | none => List.cons c (subScanF tag f (c == ',') rest)
    else List.cons c (subScanF tag f (c == ',') rest)

/-- DocumentTagHandler.remove_tag applied to the tag line: `re.sub` of
`(?:(?<=^)|(?<=,))\s*{tag},?` with the empty replacement (re.sub replaces every
non-overlapping occurrence, not only the first). -/
def docRemoveTagLine (tag line : String) : String :=
  String.mk (subScanF tag.toList (line.length + 1) true line.toList)

/-- DocumentTagHandler.add_tag applied to the tag line:
`document[i_tags_line] += f",{tag}"`. -/
def docAddTagLine (tag line : String) : String := line ++ "," ++ tag

/-- TagHierachy.list_tags as a method: reads `self.tags`, assigns no attribute
of `self`, so the hierarchy state passes through unchanged. -/
def listTagsM (h : Hier) : List (List String) × Hier := (listTags h.tags, h)

/-- TagHierachy.is_leaf_tag_ambiguous as a method: calls `self.list_tags()` and
folds the generator; no statement assigns to `self`. -/
def isLeafTagAmbiguousM (h : Hier) (tag : List String) : Bool × Hier :=
  let r := listTagsM h
  (r.1.any fun path =>
    !(path == tag) && (mismatchPair path tag).isSome && path.contains (tagLeaf tag),
   r.2)

/-- TagHierachy.try_shorten_tag_path as a method: calls
`self.is_leaf_tag_ambiguous` and returns a value; no statement assigns to
`self`. -/
def tryShortenTagPathM (h : Hier) (tag : List String) : List String × Hier :=
  let r := isLeafTagAmbiguousM h tag
  (if !r.1 then [tagLeaf tag] else tag, r.2)


/-! Basic lemmas about children-list append, filter and membership. -/

/-- Structural induction for children lists (the `induction` tactic cannot use
the mutual recursor directly). -/
theorem YList.inductionOn {motive : YList → Prop} (h0 : motive .nil)
    (h1 : ∀ c cs, motive cs → motive (.cons c cs)) : ∀ cs, motive cs
  | .nil => h0
  | .cons c cs => h1 c cs (YList.inductionOn h0 h1 cs)

theorem YList.has_appendN (xs ys : YList) (x : YNode) :
    (xs.appendN ys).has x ↔ xs.has x ∨ ys.has x := by
  induction xs using YList.inductionOn with
  | h0 => simp [YList.appendN, YList.has]
  | h1 c rest ih => simp [YList.appendN, YList.has, ih, or_assoc]

theorem YList.has_filterN (p : YNode → Bool) (xs : YList) (x : YNode) :
    (xs.filterN p).has x ↔ xs.has x ∧ p x = true := by
  induction xs using YList.inductionOn with
  | h0 => simp [YList.filterN, YList.has]
  | h1 c rest ih =>
    by_cases hp : p c = true
    · simp only [YList.filterN, if_pos hp, YList.has, ih]
      constructor
      · rintro (h | ⟨h1, h2⟩)
        · exact ⟨Or.inl h, h ▸ hp⟩
        · exact ⟨Or.inr h1, h2⟩
      · rintro ⟨h1 | h1, h2⟩
        · exact Or.inl h1
        · exact Or.inr ⟨h1, h2⟩
    · simp only [YList.filterN, if_neg hp, YList.has, ih]
      constructor
      · rintro ⟨h1, h2⟩
        exact ⟨Or.inr h1, h2⟩
      · rintro ⟨h1 | h1, h2⟩
        · rw [h1] at h2
          exact absurd h2 hp
        · exact ⟨h1, h2⟩

theorem YList.appendN_nil (xs : YList) : xs.appendN .nil = xs := by
  induction xs using YList.inductionOn with
  | h0 => rfl
  | h1 c rest ih => simp [YList.appendN, ih]

theorem YList.filterN_appendN (p : YNode → Bool) (xs ys : YList) :
    (xs.appendN ys).filterN p = (xs.filterN p).appendN (ys.filterN p) := by
  induction xs using YList.inductionOn with
  | h0 => rfl
  | h1 c rest ih =>
    by_cases hp : p c = true <;>
      simp [YList.appendN, YList.filterN, hp, ih]

theorem YList.filterN_eq_self (p : YNode → Bool) (xs : YList)
    (h : ∀ c, xs.has c → p c = true) : xs.filterN p = xs := by
  induction xs using YList.inductionOn with
  | h0 => rfl
  | h1 c rest ih =>
    have hc : p c = true := h c (Or.inl rfl)
    simp only [YList.filterN, if_pos hc]
    rw [ih fun d hd => h d (Or.inr hd)]

theorem YList.filterN_eq_nil (p : YNode → Bool) (xs : YList)
    (h : ∀ c, xs.has c → p c = false) : xs.filterN p = .nil := by
  induction xs using YList.inductionOn with
  | h0 => rfl
  | h1 c rest ih =>
    have hc : p c = false := h c (Or.inl rfl)
    simp only [YList.filterN, hc, Bool.false_eq_true, if_false]
    exact ih fun d hd => h d (Or.inr hd)

theorem stablePart_has (xs : YList) (x : YNode) :
    (stablePart xs).has x ↔ xs.has x := by
  simp only [stablePart, YList.has_appendN, YList.has_filterN]
  constructor
  · rintro (⟨h, _⟩ | ⟨h, _⟩) <;> exact h
  · intro h
    by_cases hd : isDictN x = true
    · exact Or.inr ⟨h, hd⟩
    · exact Or.inl ⟨h, by simp [hd]⟩

theorem stablePart_idem (xs : YList) : stablePart (stablePart xs) = stablePart xs := by
  unfold stablePart
  rw [YList.filterN_appendN, YList.filterN_appendN]
  rw [YList.filterN_eq_self (fun c => !isDictN c) (xs.filterN fun c => !isDictN c)
    (fun c hc => ((YList.has_filterN _ xs c).1 hc).2)]
  rw [YList.filterN_eq_nil (fun c => !isDictN c) (xs.filterN isDictN)
    (fun c hc => by
      have := ((YList.has_filterN _ xs c).1 hc).2
      simp [this])]
  rw [YList.filterN_eq_nil isDictN (xs.filterN fun c => !isDictN c)
    (fun c hc => by
      have := ((YList.has_filterN _ xs c).1 hc).2
      simpa using this)]
  rw [YList.filterN_eq_self isDictN (xs.filterN isDictN)
    (fun c hc => ((YList.has_filterN _ xs c).1 hc).2)]
  rw [YList.appendN_nil, YList.appendN]

/-! Lemmas about the reorder pass. -/

theorem reorderEach_cons (c : YNode) (cs : YList) :
    reorderEach (.cons c cs) = .cons (reorderItem c) (reorderEach cs) := by
  cases c <;> rfl

theorem isDictN_reorderItem (c : YNode) : isDictN (reorderItem c) = isDictN c := by
  cases c <;> rfl

theorem reorderItem_of_not_dict (c : YNode) (h : isDictN c = false) :
    reorderItem c = c := by
  cases c <;> first | rfl | simp [isDictN] at h

theorem reorderEach_of_fix (xs : YList) (h : ∀ c, xs.has c → reorderItem c = c) :
    reorderEach xs = xs := by
  induction xs using YList.inductionOn with
  | h0 => rfl
  | h1 c rest ih =>
    rw [reorderEach_cons, h c (Or.inl rfl), ih fun d hd => h d (Or.inr hd)]

mutual
theorem reorderVal_idem : ∀ v : YNode, reorderVal (reorderVal v) = reorderVal v
  | .s _ => rfl
  | .m _ _ => rfl
  | .l cs => by
    show reorderVal (.l (stablePart (reorderEach cs))) = .l (stablePart (reorderEach cs))
    show YNode.l (stablePart (reorderEach (stablePart (reorderEach cs)))) =
      .l (stablePart (reorderEach cs))
    rw [reorderEach_of_fix (stablePart (reorderEach cs))
      (fun c hc => reorderEach_fix cs c ((stablePart_has (reorderEach cs) c).1 hc))]
    rw [stablePart_idem]
theorem reorderEach_fix : ∀ cs : YList, ∀ c, (reorderEach cs).has c → reorderItem c = c
  | .nil => by intro c hc; cases hc
  | .cons d rest => by
    intro c hc
    rw [reorderEach_cons] at hc
    rcases hc with h | h
    · subst h
      cases d with
      | s _ => rfl
      | l _ => rfl
      | m k v =>
        show YNode.m k (reorderVal (reorderVal v)) = .m k (reorderVal v)
        rw [reorderVal_idem v]
    · exact reorderEach_fix rest c h
end

theorem reorderEach_stablePart_fix (cs : YList) :
    reorderEach (stablePart (reorderEach cs)) = stablePart (reorderEach cs) :=
  reorderEach_of_fix _ fun c hc =>
    reorderEach_fix cs c ((stablePart_has (reorderEach cs) c).1 hc)

theorem reorderTags_idem (t : YNode) : reorderTags (reorderTags t) = reorderTags t := by
  cases t with
  | s _ => rfl
  | m k v =>
    show YNode.m k (reorderVal (reorderVal v)) = .m k (reorderVal v)
    rw [reorderVal_idem]
  | l cs =>
    show YNode.l (stablePart (reorderEach (stablePart (reorderEach cs)))) =
      .l (stablePart (reorderEach cs))
    rw [reorderEach_stablePart_fix, stablePart_idem]

/-! The reordered children list is the stable partition of the input. -/

theorem filterN_reorderEach_scalars (cs : YList) :
    (reorderEach cs).filterN (fun c => !isDictN c) = cs.filterN (fun c => !isDictN c) := by
  induction cs using YList.inductionOn with
  | h0 => rfl
  | h1 c rest ih =>
    rw [reorderEach_cons]
    by_cases hd : isDictN c = true
    · simp only [YList.filterN, isDictN_reorderItem, hd]
      simpa using ih
    · have hd' : isDictN c = false := by simpa using hd
      simp only [YList.filterN, isDictN_reorderItem, hd', reorderItem_of_not_dict c hd']
      simpa using ih

theorem filterN_reorderEach_dicts (cs : YList) :
    (reorderEach cs).filterN isDictN = (cs.filterN isDictN).mapN reorderItem := by
  induction cs using YList.inductionOn with
  | h0 => rfl
  | h1 c rest ih =>
    rw [reorderEach_cons]
    by_cases hd : isDictN c = true
    · simp only [YList.filterN, isDictN_reorderItem, hd, if_true, YList.mapN]
      rw [ih]
    · have hd' : isDictN c = false := by simpa using hd
      simp only [YList.filterN, isDictN_reorderItem, hd', Bool.false_eq_true, if_false]
      exact ih

theorem reorderVal_stable_partition (cs : YList) :
    reorderVal (.l cs) =
      .l ((cs.filterN fun c => !isDictN c).appendN ((cs.filterN isDictN).mapN reorderItem)) := by
  show YNode.l (stablePart (reorderEach cs)) = _
  rw [stablePart, filterN_reorderEach_scalars, filterN_reorderEach_dicts]

/-! Membership characterization of list_tags, and its invariance under the
reordering pass. -/

theorem addAll_nil (ps : List (List String)) : addAll [] ps = ps := rfl

theorem addAll_cons (t : List String) (todo ps : List (List String)) :
    addAll (t :: todo) ps = addAll todo (if t ∈ ps then ps else ps ++ [t]) := rfl

theorem mem_addAll (todo ps : List (List String)) (x : List String) :
    x ∈ addAll todo ps ↔ x ∈ ps ∨ x ∈ todo := by
  induction todo generalizing ps with
  | nil => simp [addAll_nil]
  | cons t todo ih =>
    rw [addAll_cons, ih]
    by_cases h : t ∈ ps
    · simp only [if_pos h, List.mem_cons]
      constructor
      · rintro (hx | hx)
        · exact Or.inl hx
        · exact Or.inr (Or.inr hx)
      · rintro (hx | hx | hx)
        · exact Or.inl hx
        · exact Or.inl (hx ▸ h)
        · exact Or.inr hx
    · simp only [if_neg h, List.mem_append, List.mem_singleton, List.mem_cons]
      tauto

mutual
/-- The paths a node contributes to list_tags, independent of the accumulator:
every leading segment of the extended current path at a string leaf, gathered
over the whole subtree. -/
def nodePaths (cur : List String) : YNode → List (List String)
  | .s x => initialSegs (cur ++ [x])
  | .m k v => nodePaths (cur ++ [k]) v
  | .l cs => nodePathsList cur cs
def nodePathsList (cur : List String) : YList → List (List String)
  | .nil => []
  | .cons c cs => nodePaths cur c ++ nodePathsList cur cs
end

mutual
theorem mem_listTagsAux : ∀ (n : YNode) (ps : List (List String)) (cur : List String)
    (x : List String), x ∈ listTagsAux ps cur n ↔ x ∈ ps ∨ x ∈ nodePaths cur n
  | .s a => by intro ps cur x; simp [listTagsAux, nodePaths, mem_addAll]
  | .m k v => by
    intro ps cur x
    show x ∈ listTagsAux ps (cur ++ [k]) v ↔ x ∈ ps ∨ x ∈ nodePaths (cur ++ [k]) v
    exact mem_listTagsAux v ps (cur ++ [k]) x
  | .l cs => by
    intro ps cur x
    exact mem_listTagsList cs ps cur x
theorem mem_listTagsList : ∀ (cs : YList) (ps : List (List String)) (cur : List String)
    (x : List String), x ∈ listTagsList ps cur cs ↔ x ∈ ps ∨ x ∈ nodePathsList cur cs
  | .nil => by intro ps cur x; simp [listTagsList, nodePathsList]
  | .cons c cs => by
    intro ps cur x
    show x ∈ listTagsList (listTagsAux ps cur c) cur cs ↔ _
    rw [mem_listTagsList cs (listTagsAux ps cur c) cur x, mem_listTagsAux c ps cur x]
    show _ ↔ x ∈ ps ∨ x ∈ nodePaths cur c ++ nodePathsList cur cs
    rw [List.mem_append, or_assoc]
end

theorem mem_nodePathsList_appendN (cur : List String) (xs ys : YList) (x : List String) :
    x ∈ nodePathsList cur (xs.appendN ys) ↔
      x ∈ nodePathsList cur xs ∨ x ∈ nodePathsList cur ys := by
  induction xs using YList.inductionOn with
  | h0 => simp [YList.appendN, nodePathsList]
  | h1 c rest ih =>
    show x ∈ nodePaths cur c ++ nodePathsList cur (rest.appendN ys) ↔
      x ∈ nodePaths cur c ++ nodePathsList cur rest ∨ x ∈ nodePathsList cur ys
    simp only [List.mem_append, ih, or_assoc]

theorem mem_nodePathsList_stablePart (cur : List String) (cs : YList) (x : List String) :
    x ∈ nodePathsList cur (stablePart cs) ↔ x ∈ nodePathsList cur cs := by
  rw [stablePart, mem_nodePathsList_appendN]
  induction cs using YList.inductionOn with
  | h0 => simp [YList.filterN, nodePathsList]
  | h1 c rest ih =>
    by_cases hd : isDictN c = true
    · simp only [YList.filterN, hd, Bool.not_true, Bool.false_eq_true, if_false, if_true]
      show x ∈ nodePathsList cur (rest.filterN fun c => !isDictN c) ∨
          x ∈ nodePaths cur c ++ nodePathsList cur (rest.filterN isDictN) ↔
        x ∈ nodePaths cur c ++ nodePathsList cur rest
      simp only [List.mem_append]
      tauto
    · have hd' : isDictN c = false := by simpa using hd
      simp only [YList.filterN, hd', Bool.not_false, Bool.false_eq_true, if_false, if_true]
      show x ∈ nodePaths cur c ++ nodePathsList cur (rest.filterN fun c => !isDictN c) ∨
          x ∈ nodePathsList cur (rest.filterN isDictN) ↔
        x ∈ nodePaths cur c ++ nodePathsList cur rest
      simp only [List.mem_append]
      tauto

mutual
theorem mem_nodePaths_reorderVal : ∀ (v : YNode) (cur : List String) (x : List String),
    x ∈ nodePaths cur (reorderVal v) ↔ x ∈ nodePaths cur v
  | .s _ => by intro cur x; exact Iff.rfl
  | .m _ _ => by intro cur x; exact Iff.rfl
  | .l cs => by
    intro cur x
    show x ∈ nodePathsList cur (stablePart (reorderEach cs)) ↔ x ∈ nodePathsList cur cs
    rw [mem_nodePathsList_stablePart]
    exact mem_nodePathsList_reorderEach cs cur x
theorem mem_nodePathsList_reorderEach : ∀ (cs : YList) (cur : List String)
    (x : List String), x ∈ nodePathsList cur (reorderEach cs) ↔ x ∈ nodePathsList cur cs
  | .nil => by intro cur x; exact Iff.rfl
  | .cons c cs => by
    intro cur x
    rw [reorderEach_cons]
    show x ∈ nodePaths cur (reorderItem c) ++ nodePathsList cur (reorderEach cs) ↔
      x ∈ nodePaths cur c ++ nodePathsList cur cs
    simp only [List.mem_append]
    rw [mem_nodePathsList_reorderEach cs cur x]
    refine or_congr ?_ Iff.rfl
    cases c with
    | s a => exact Iff.rfl
    | l w => exact Iff.rfl
    | m k v =>
      show x ∈ nodePaths (cur ++ [k]) (reorderVal v) ↔ x ∈ nodePaths (cur ++ [k]) v
      exact mem_nodePaths_reorderVal v (cur ++ [k]) x
end

theorem mem_listTags_reorderTags (t : YNode) (x : List String) :
    x ∈ listTags (reorderTags t) ↔ x ∈ listTags t := by
  rw [listTags, listTags, mem_listTagsAux, mem_listTagsAux]
  refine or_congr Iff.rfl ?_
  cases t with
  | s a => exact Iff.rfl
  | m k v =>
    show x ∈ nodePaths ([] ++ [k]) (reorderVal v) ↔ x ∈ nodePaths ([] ++ [k]) v
    exact mem_nodePaths_reorderVal v ([] ++ [k]) x
  | l cs =>
    show x ∈ nodePathsList [] (stablePart (reorderEach cs)) ↔ x ∈ nodePathsList [] cs
    rw [mem_nodePathsList_stablePart]
    exact mem_nodePathsList_reorderEach cs [] x

/-! Concrete trees used to settle the claims. -/

/-- The spec example tree `{tags: [{foo: [bar, baz]}]}`. -/
def exListTree : YNode :=
  .m "tags" (.l (.cons (.m "foo" (.l (.cons (.s "bar") (.cons (.s "baz") .nil)))) .nil))

/-- Root children list of `{tags: [{a: [{b: [c]}]}]}` (the parent chain `a::b`
resolves). -/
def exAddRoot : YList :=
  .cons (.m "a" (.l (.cons (.m "b" (.l (.cons (.s "c") .nil))) .nil))) .nil

/-- The root children list after add_tag(`a::b::b`) ran once: the scalar "b"
was appended at the root instead of under `a::b`. -/
def exAddOnce : YList :=
  .cons (.m "a" (.l (.cons (.m "b" (.l (.cons (.s "c") .nil))) .nil))) (.cons (.s "b") .nil)

/-- The root children list after add_tag(`a::b::b`) ran a second time: the
stray scalar "b" got replaced by the mapping `{b: "b::b"}`. -/
def exAddTwice : YList :=
  .cons (.m "a" (.l (.cons (.m "b" (.l (.cons (.s "c") .nil))) .nil)))
    (.cons (.m "b" (.s "b::b")) .nil)

/-- The spec disambiguation tree holding exactly the tags `a::x` and `b::y`. -/
def exShortenTree : YNode :=
  .m "tags" (.l (.cons (.m "a" (.s "x")) (.cons (.m "b" (.s "y")) .nil)))

/-- Root children list of `{tags: [foo, bar]}`. -/
def exRenameRoot : YNode := .l (.cons (.s "foo") (.cons (.s "bar") .nil))

/-- What rename_tag(qux, new) actually produces on `{tags: [foo, bar]}`: the
last sibling "bar" silently renamed. -/
def exRenameOut : YNode := .l (.cons (.s "foo") (.cons (.s "new") .nil))

/-- The spec reorder example `{tags: [{foo: foo2}, {bar: bar2}, baz]}`. -/
def exReorderTree : YNode :=
  .m "tags" (.l (.cons (.m "foo" (.s "foo2"))
    (.cons (.m "bar" (.s "bar2")) (.cons (.s "baz") .nil))))

/-- The canonical form `{tags: [baz, {foo: foo2}, {bar: bar2}]}`. -/
def exReorderOut : YNode :=
  .m "tags" (.l (.cons (.s "baz") (.cons (.m "foo" (.s "foo2"))
    (.cons (.m "bar" (.s "bar2")) .nil))))

/-- Claim C1: on the tree `{tags: [{foo: [bar, baz]}]}` list_tags does NOT
return the paths `[foo], [foo,bar], [foo,baz]`; because the traversal starts at
`self.tags` instead of `self.tags["tags"]`, every returned path carries the
fixed top-level key "tags" as an extra first component, and the bare path
`[tags]` is returned as well. -/
theorem claim_C1_listTags_eval :
    listTags exListTree =
        [["tags"], ["tags", "foo"], ["tags", "foo", "bar"], ["tags", "foo", "baz"]] ∧
      ["foo"] ∉ listTags exListTree ∧ ["foo", "bar"] ∉ listTags exListTree := by
  decide

/-- Claim C2: inserting `a::b::b` (whose parent chain `a::b` resolves in
`{tags: [{a: [{b: [c]}]}]}`) twice is not idempotent even up to the list_tags
set: the first insert appends the stray scalar "b" at the root, the second
replaces that scalar by `{b: "b::b"}`, so the path `tags::b::(b::b)` appears
only after the second insert; the second insert is also clearly not a no-op. -/
theorem claim_C2_addTag_not_idempotent :
    addTagAux ["a", "b", "b"] (.l exAddRoot) = .ok (.l exAddOnce) ∧
      addTagAux ["a", "b", "b"] (.l exAddOnce) = .ok (.l exAddTwice) ∧
      ["tags", "b", "b::b"] ∈ listTags (.m "tags" (.l exAddTwice)) ∧
      ["tags", "b", "b::b"] ∉ listTags (.m "tags" (.l exAddOnce)) := by
  decide

/-- Claim C3 counterexample: on the tag line "foo,bar", removeTag("bar") leaves
"foo," — the separator before a line-final tag is NOT collapsed, so the claimed
result "foo" is wrong. -/
theorem claim_C3_remove_counterexample :
    docRemoveTagLine "bar" "foo,bar" = "foo," ∧ "foo," ≠ "foo" := by
  decide

/-- Claim C3 amended: removeTag removes EVERY occurrence of the tag preceded by
line start or a comma (re.sub is global), consuming one FOLLOWING comma when
present; the comma before a line-final tag is left in place: "foo,bar" minus
"bar" gives "foo,", "x,y,x" minus "x" gives "y,", and "foo,bar" minus "foo"
gives "bar".  addTag("baz") on the tag line "foo,bar" appends ",baz" giving
"foo,bar,baz". -/
theorem claim_C3_amended_eval :
    docRemoveTagLine "bar" "foo,bar" = "foo," ∧
      docAddTagLine "baz" "foo,bar" = "foo,bar,baz" ∧
      docRemoveTagLine "x" "x,y,x" = "y," ∧
      docRemoveTagLine "foo" "foo,bar" = "bar" := by
  decide

/-- Claim C4: lint (reorder_list_items followed by add_blank_lines, the text
being re-dumped from the tree on each run) is idempotent for every loaded
hierarchy state and every YAML encoder. -/
theorem claim_C4_lint_idempotent (dump : YNode → String) (h : Hier) :
    lint dump (lint dump h) = lint dump h := by
  simp only [lint]
  rw [reorderTags_idem]

/-- Claim C5: reorder_list_items on any children list is the stable partition
putting scalar entries (in their original relative order) before mapping
entries (in their original relative order, their subtrees recursively
reordered); in particular `{tags: [{foo: foo2}, {bar: bar2}, baz]}` becomes
`{tags: [baz, {foo: foo2}, {bar: bar2}]}`. -/
theorem claim_C5_reorder_stable_partition :
    (∀ cs : YList, reorderVal (.l cs) =
        .l ((cs.filterN fun c => !isDictN c).appendN
          ((cs.filterN isDictN).mapN reorderItem))) ∧
      reorderTags exReorderTree = exReorderOut := by
  refine ⟨reorderVal_stable_partition, ?_⟩
  decide

/-- Claim C6: on the tree holding exactly the tags `a::x` and `b::y` the code
reports BOTH leaves as ambiguous (because every list_tags path carries the
top-level key "tags", the mismatch test succeeds against the tag's own path),
so try_shorten_tag_path returns both tags unchanged instead of the claimed
single-component leaf forms. -/
theorem claim_C6_shorten_eval :
    isLeafTagAmbiguous exShortenTree ["a", "x"] = true ∧
      isLeafTagAmbiguous exShortenTree ["b", "y"] = true ∧
      tryShortenTagPath exShortenTree ["a", "x"] = ["a", "x"] ∧
      tryShortenTagPath exShortenTree ["b", "y"] = ["b", "y"] ∧
      tryShortenTagPath exShortenTree ["a", "x"] ≠ ["x"] := by
  decide

/-- Claim C7: renaming the absent tag "qux" in `{tags: [foo, bar]}` does NOT
fail and does NOT leave the tree unchanged: `pyaoi.find_if` returns -1, Python's
`node[-1]` addresses the last sibling, and the code silently renames "bar" to
the new name. -/
theorem claim_C7_rename_missing_eval :
    renameAux ["qux"] "new" exRenameRoot = .ok exRenameOut ∧
      exRenameOut ≠ exRenameRoot := by
  decide

/-- Claim C8 counterexample: remove_root_tag on the one-component path ["foo"]
does not fail; `pop(0)` simply yields the zero-component path (the repository's
own test asserts `str(tag) == ""` afterwards). -/
theorem claim_C8_counterexample :
    tagRemoveRoot ["foo"] = some ([] : List String) := by
  decide

/-- Claim C8 amended: remove_root_tag never raises on a nonempty path; it
always yields the path minus its first component, which for a one-component
path is the empty path (only the call on an already-empty path raises
IndexError). -/
theorem claim_C8_amended (s : String) (t : List String) :
    tagRemoveRoot (s :: t) = some t := rfl

/-- Claim C9: is_leaf_tag_ambiguous and try_shorten_tag_path are read-only with
respect to the hierarchy state: neither method body assigns to `self.tags` or
`self.tags_file`, so the threaded state comes back unchanged. -/
theorem claim_C9_queries_readonly (h : Hier) (tag : List String) :
    (isLeafTagAmbiguousM h tag).2 = h ∧ (tryShortenTagPathM h tag).2 = h :=
  ⟨rfl, rfl⟩

/-- Claim C10: the reordering pass never adds or removes a tag path: a path is
in list_tags after reorder_list_items exactly when it was in list_tags before. -/
theorem claim_C10_reorder_preserves_listTags (t : YNode) (p : List String) :
    p ∈ listTags (reorderTags t) ↔ p ∈ listTags t :=
  mem_listTags_reorderTags t p
